import Mathlib

/-
Shallow embedding of `src/examples/osgterrain/osgterrain.cpp` (OpenSceneGraph
example `osgterrain`).

Modelling conventions:
* `osg::Node*` values are abstract identifiers (`Node := Nat`); the node
  pointers produced by `osgDB::readNodeFile` are supplied by an oracle
  `loader : String -> Option Node` (`none` models a failed load).
* `std::set<std::string>` (`MasterOperation::Files`) is a list kept in
  iteration (sorted, duplicate-free) order via `setInsert`.
* `std::map<std::string, osg::ref_ptr<osg::Node>>`
  (`MasterOperation::FilenameNodeMap`) is an association list kept in
  iteration order via `mapInsert` / `mapErase` / `mapFind`.
* `osg::Group` children are a `List Node`; `Group::addChild` appends and
  `Group::removeChild` deletes the first occurrence (`List.erase`).
-/

abbrev Node := Nat

abbrev GTId := Nat

abbrev Files := List String

abbrev FilenameNodeMap := List (String × Node)

/-- Insertion into `std::set<std::string>`: keeps the list sorted and without
duplicates, matching the set's iteration order. -/
def setInsert (s : Files) (x : String) : Files :=
  match s with
  | [] => [x]
  | y :: ys =>
    if x < y then x :: y :: ys
    else if x = y then y :: ys
    else y :: setInsert ys x

/-- `std::set::count` (0 or 1 on a well-formed set). -/
def setCount (s : Files) (x : String) : Nat := s.count x

/-- `std::map::find` / lookup of the first entry with the given key. -/
def mapFind (m : FilenameNodeMap) (k : String) : Option Node :=
  match m with
  | [] => none
  | p :: t => if p.1 = k then some p.2 else mapFind t k

/-- `std::map::operator[] = v`: insert in key order, replacing an existing
entry for the same key. -/
def mapInsert (m : FilenameNodeMap) (k : String) (v : Node) : FilenameNodeMap :=
  match m with
  | [] => [(k, v)]
  | p :: t =>
    if k < p.1 then (k, v) :: p :: t
    else if k = p.1 then (k, v) :: t
    else p :: mapInsert t k v

/-- `std::map::erase` of the (first) entry with the given key. -/
def mapErase (m : FilenameNodeMap) (k : String) : FilenameNodeMap :=
  match m with
  | [] => []
  | p :: t => if p.1 = k then t else p :: mapErase t k

/-- `std::map::count` of a key (0 or 1 on a well-formed map). -/
def mapCount (m : FilenameNodeMap) (k : String) : Nat :=
  (m.map Prod.fst).count k

theorem mem_setInsert (s : Files) (x y : String) :
    y ∈ setInsert s x ↔ y = x ∨ y ∈ s := by
  induction s with
  | nil => simp [setInsert]
  | cons z zs ih =>
    simp only [setInsert]
    by_cases h1 : x < z
    · rw [if_pos h1]
      simp [List.mem_cons]
    · by_cases h2 : x = z
      · subst h2
        rw [if_neg h1, if_pos rfl]
        simp [List.mem_cons]
      · rw [if_neg h1, if_neg h2]
        simp only [List.mem_cons, ih]
        tauto

theorem sorted_setInsert (s : Files) (x : String) (h : s.Sorted (· < ·)) :
    (setInsert s x).Sorted (· < ·) := by
  induction s with
  | nil => simp [setInsert]
  | cons z zs ih =>
    rcases List.pairwise_cons.mp h with ⟨hz, hzs⟩
    simp only [setInsert]
    by_cases h1 : x < z
    · rw [if_pos h1]
      refine List.pairwise_cons.mpr ⟨?_, h⟩
      intro a ha
      rcases List.mem_cons.mp ha with rfl | ha
      · exact h1
      · exact lt_trans h1 (hz a ha)
    · by_cases h2 : x = z
      · rw [if_neg h1, if_pos h2]
        exact h
      · rw [if_neg h1, if_neg h2]
        refine List.pairwise_cons.mpr ⟨?_, ih hzs⟩
        intro a ha
        rcases (mem_setInsert zs x a).mp ha with rfl | ha
        · exact lt_of_le_of_ne (not_lt.mp h1) (Ne.symm h2)
        · exact hz a ha

theorem nodup_of_sorted {l : Files} (h : l.Sorted (· < ·)) : l.Nodup :=
  h.imp (fun hab => ne_of_lt hab)

theorem mapFind_mapInsert (m : FilenameNodeMap) (k k' : String) (v : Node) :
    mapFind (mapInsert m k v) k' = if k' = k then some v else mapFind m k' := by
  induction m with
  | nil =>
    by_cases h : k' = k
    · subst h
      simp [mapInsert, mapFind]
    · simp [mapInsert, mapFind, h, Ne.symm h]
  | cons p t ih =>
    obtain ⟨a, b⟩ := p
    simp only [mapInsert]
    by_cases h1 : k < a
    · rw [if_pos h1]
      by_cases h : k' = k
      · subst h
        simp [mapFind]
      · simp [mapFind, h, Ne.symm h]
    · rw [if_neg h1]
      by_cases h2 : k = a
      · rw [if_pos h2]
        subst h2
        by_cases h : k' = k
        · subst h
          simp [mapFind]
        · simp [mapFind, h, Ne.symm h]
      · rw [if_neg h2]
        by_cases ha : a = k'
        · subst ha
          have hne : ¬a = k := fun hh => h2 hh.symm
          simp [mapFind, hne, Ne.symm hne]
        · simp [mapFind, ha, ih]

theorem mapFind_eq_none_iff (m : FilenameNodeMap) (k : String) :
    mapFind m k = none ↔ k ∉ m.map Prod.fst := by
  induction m with
  | nil => simp [mapFind]
  | cons p t ih =>
    simp only [mapFind, List.map_cons, List.mem_cons]
    by_cases h : p.1 = k
    · simp [h]
    · rw [if_neg h, ih]
      constructor
      · intro hk hor
        rcases hor with hop | hmem
        · exact h hop.symm
        · exact hk hmem
      · intro hk hmem
        exact hk (Or.inr hmem)

theorem mapFind_mem {m : FilenameNodeMap} {k : String} {v : Node}
    (h : mapFind m k = some v) : (k, v) ∈ m := by
  induction m with
  | nil => simp [mapFind] at h
  | cons p t ih =>
    simp only [mapFind] at h
    by_cases hp : p.1 = k
    · rw [if_pos hp] at h
      have hpv : p = (k, v) := by
        obtain ⟨a, b⟩ := p
        simp only [Option.some.injEq] at h
        simp_all [Prod.ext_iff]
      rw [hpv]
      exact List.mem_cons_self _ _
    · rw [if_neg hp] at h
      exact List.mem_cons_of_mem _ (ih h)

theorem mapFind_of_mem {m : FilenameNodeMap} {k : String} {v : Node}
    (hnd : (m.map Prod.fst).Nodup) (h : (k, v) ∈ m) : mapFind m k = some v := by
  induction m with
  | nil => simp at h
  | cons p t ih =>
    rcases List.mem_cons.mp h with rfl | hmem
    · simp [mapFind]
    · simp only [List.map_cons, List.nodup_cons] at hnd
      have hp : ¬p.1 = k := by
        intro hh
        exact hnd.1 (hh ▸ (List.mem_map.mpr ⟨(k, v), hmem, rfl⟩))
      simp only [mapFind, if_neg hp]
      exact ih hnd.2 hmem

theorem keys_mapErase (m : FilenameNodeMap) (k : String) :
    (mapErase m k).map Prod.fst = (m.map Prod.fst).erase k := by
  induction m with
  | nil => simp [mapErase]
  | cons p t ih =>
    simp only [mapErase]
    by_cases hp : p.1 = k
    · rw [if_pos hp]
      simp [List.erase_cons, hp]
    · rw [if_neg hp]
      simp [List.erase_cons, hp, ih]

theorem mapFind_mapErase_ne (m : FilenameNodeMap) (k k' : String) (h : k' ≠ k) :
    mapFind (mapErase m k) k' = mapFind m k' := by
  induction m with
  | nil => simp [mapErase]
  | cons p t ih =>
    simp only [mapErase]
    by_cases hp : p.1 = k
    · rw [if_pos hp]
      have hne : ¬p.1 = k' := fun hh => h (hh ▸ hp)
      simp only [mapFind, if_neg hne]
    · rw [if_neg hp]
      simp only [mapFind, ih]

theorem mapErase_of_find_none {m : FilenameNodeMap} {k : String}
    (h : mapFind m k = none) : mapErase m k = m := by
  induction m with
  | nil => simp [mapErase]
  | cons p t ih =>
    simp only [mapFind] at h
    by_cases hp : p.1 = k
    · rw [if_pos hp] at h
      exact absurd h (by simp)
    · rw [if_neg hp] at h
      simp only [mapErase, if_neg hp, ih h]

theorem keys_mapInsert_notMem (m : FilenameNodeMap) (k : String) (v : Node)
    (h : k ∉ m.map Prod.fst) :
    List.Perm ((mapInsert m k v).map Prod.fst) (k :: m.map Prod.fst) := by
  induction m with
  | nil => simp [mapInsert]
  | cons p t ih =>
    obtain ⟨a, b⟩ := p
    simp only [List.map_cons, List.mem_cons] at h
    push_neg at h
    simp only [mapInsert]
    by_cases h1 : k < a
    · rw [if_pos h1]
      simp
    · rw [if_neg h1, if_neg h.1]
      simp only [List.map_cons]
      exact ((ih h.2).cons a).trans (List.Perm.swap k a _)

theorem snds_mapInsert_notMem (m : FilenameNodeMap) (k : String) (v : Node)
    (h : k ∉ m.map Prod.fst) :
    List.Perm ((mapInsert m k v).map Prod.snd) (v :: m.map Prod.snd) := by
  induction m with
  | nil => simp [mapInsert]
  | cons p t ih =>
    obtain ⟨a, b⟩ := p
    simp only [List.map_cons, List.mem_cons] at h
    push_neg at h
    simp only [mapInsert]
    by_cases h1 : k < a
    · rw [if_pos h1]
      simp
    · rw [if_neg h1, if_neg h.1]
      simp only [List.map_cons]
      exact ((ih h.2).cons b).trans (List.Perm.swap v b _)

theorem snds_mapErase {m : FilenameNodeMap} {k : String} {n : Node}
    (hk : (m.map Prod.fst).Nodup) (hv : (m.map Prod.snd).Nodup)
    (h : mapFind m k = some n) :
    (mapErase m k).map Prod.snd = (m.map Prod.snd).erase n := by
  induction m with
  | nil => simp [mapFind] at h
  | cons p t ih =>
    simp only [mapFind] at h
    simp only [List.map_cons, List.nodup_cons] at hk hv
    by_cases hp : p.1 = k
    · rw [if_pos hp] at h
      have hn : p.2 = n := by
        simpa using h
      simp only [mapErase, if_pos hp, List.map_cons, hn, List.erase_cons_head]
    · rw [if_neg hp] at h
      have hmem : n ∈ t.map Prod.snd :=
        List.mem_map.mpr ⟨(k, n), mapFind_mem h, rfl⟩
      have hbn : ¬p.2 = n := fun hh => hv.1 (hh ▸ hmem)
      simp only [mapErase, if_neg hp, List.map_cons, ih hk.2 hv.2 h]
      rw [List.erase_cons_tail]
      simp [hbn]

/-- Parse loop of `MasterOperation::readMasterFile` over the token stream of
the master file (`osgDB::Input`): a `file <name>` two-token sequence inserts
`<name>` into the set and advances two tokens, anything else advances one
token.  The `rf` argument threads the local variable `readFilename`, which
the source declares WITHOUT an initializer; its incoming value models the
indeterminate initial contents of that local. -/
def readMasterTokens (tokens : List String) (files : Files) (rf : Bool) : Files × Bool :=
  match tokens with
  | [] => (files, rf)
  | [_] => (files, rf)
  | t1 :: t2 :: rest =>
    if t1 = "file" then readMasterTokens rest (setInsert files t2) true
    else readMasterTokens (t2 :: rest) files rf

/-- `MasterOperation::readMasterFile`: `canOpen` models whether
`std::ifstream fin(_filename.c_str())` succeeded; on failure the function
returns `false` without touching `files`. -/
def readMasterFile (canOpen : Bool) (tokens : List String) (rf0 : Bool) (files : Files) :
    Files × Bool :=
  if canOpen then readMasterTokens tokens files rf0 else (files, false)

/-- Loop body of `MasterOperation::open`: for each filename, a successful
`osgDB::readNodeFile` appends the node to the group's children and stores it
in `_existingFilenameNodeMap`. -/
def openLoadFrom (loader : String → Option Node) (acc : FilenameNodeMap) (sc : List Node) :
    Files → FilenameNodeMap × List Node
  | [] => (acc, sc)
  | f :: fs =>
    match loader f with
    | some n => openLoadFrom loader (mapInsert acc f n) (sc ++ [n]) fs
    | none => openLoadFrom loader acc sc fs

/-- `MasterOperation::open` starting from an empty map and an empty set of
operation-owned children. -/
def openLoad (loader : String → Option Node) (files : Files) : FilenameNodeMap × List Node :=
  openLoadFrom loader [] [] files

/-- First diff loop of `MasterOperation::operator()` (under `_mutex`):
`newFiles` collects the filenames of the master file that are not keys of
`_existingFilenameNodeMap`. -/
def computeNewFilesFrom (m : FilenameNodeMap) (acc : Files) : Files → Files
  | [] => acc
  | f :: fs =>
    if mapCount m f = 0 then computeNewFilesFrom m (setInsert acc f) fs
    else computeNewFilesFrom m acc fs

def computeNewFiles (files : Files) (m : FilenameNodeMap) : Files :=
  computeNewFilesFrom m [] files

/-- Second diff loop of `MasterOperation::operator()` (under `_mutex`):
`removedFiles` collects the keys of `_existingFilenameNodeMap` that do not
appear in the master file. -/
def computeRemovedFilesFrom (files : Files) (acc : Files) : FilenameNodeMap → Files
  | [] => acc
  | p :: ps =>
    if setCount files p.1 = 0 then computeRemovedFilesFrom files (setInsert acc p.1) ps
    else computeRemovedFilesFrom files acc ps

def computeRemovedFiles (files : Files) (m : FilenameNodeMap) : Files :=
  computeRemovedFilesFrom files [] m

/-- The `nodesToAdd` accumulation of the load loop in
`MasterOperation::operator()`: `nodesToAdd[*nitr] = loadedModel` for every
successful `osgDB::readNodeFile`. -/
def loadFilesFrom (loader : String → Option Node) (acc : FilenameNodeMap) :
    Files → FilenameNodeMap
  | [] => acc
  | f :: fs =>
    match loader f with
    | some n => loadFilesFrom loader (mapInsert acc f n) fs
    | none => loadFilesFrom loader acc fs

def loadFiles (loader : String → Option Node) (fs : Files) : FilenameNodeMap :=
  loadFilesFrom loader [] fs

theorem mem_computeNewFilesFrom (m : FilenameNodeMap) (fs : Files) :
    ∀ (acc : Files) (y : String),
      y ∈ computeNewFilesFrom m acc fs ↔ y ∈ acc ∨ (y ∈ fs ∧ mapCount m y = 0) := by
  induction fs with
  | nil => simp [computeNewFilesFrom]
  | cons f fs ih =>
    intro acc y
    simp only [computeNewFilesFrom]
    by_cases hc : mapCount m f = 0
    · rw [if_pos hc, ih, mem_setInsert]
      constructor
      · rintro ((rfl | hy) | ⟨hy, hcy⟩)
        · exact Or.inr ⟨List.mem_cons_self _ _, hc⟩
        · exact Or.inl hy
        · exact Or.inr ⟨List.mem_cons_of_mem _ hy, hcy⟩
      · rintro (hy | ⟨hy, hcy⟩)
        · exact Or.inl (Or.inr hy)
        · rcases List.mem_cons.mp hy with rfl | hy
          · exact Or.inl (Or.inl rfl)
          · exact Or.inr ⟨hy, hcy⟩
    · rw [if_neg hc, ih]
      constructor
      · rintro (hy | ⟨hy, hcy⟩)
        · exact Or.inl hy
        · exact Or.inr ⟨List.mem_cons_of_mem _ hy, hcy⟩
      · rintro (hy | ⟨hy, hcy⟩)
        · exact Or.inl hy
        · rcases List.mem_cons.mp hy with rfl | hy
          · exact absurd hcy hc
          · exact Or.inr ⟨hy, hcy⟩

theorem sorted_computeNewFilesFrom (m : FilenameNodeMap) (fs : Files) :
    ∀ acc : Files, acc.Sorted (· < ·) → (computeNewFilesFrom m acc fs).Sorted (· < ·) := by
  induction fs with
  | nil =>
    intro acc h
    exact h
  | cons f fs ih =>
    intro acc h
    simp only [computeNewFilesFrom]
    by_cases hc : mapCount m f = 0
    · rw [if_pos hc]
      exact ih _ (sorted_setInsert _ _ h)
    · rw [if_neg hc]
      exact ih _ h

theorem mem_computeRemovedFilesFrom (files : Files) (ps : FilenameNodeMap) :
    ∀ (acc : Files) (y : String),
      y ∈ computeRemovedFilesFrom files acc ps ↔
        y ∈ acc ∨ (y ∈ ps.map Prod.fst ∧ setCount files y = 0) := by
  induction ps with
  | nil => simp [computeRemovedFilesFrom]
  | cons p ps ih =>
    intro acc y
    simp only [computeRemovedFilesFrom]
    by_cases hc : setCount files p.1 = 0
    · rw [if_pos hc, ih, mem_setInsert]
      constructor
      · rintro ((rfl | hy) | ⟨hy, hcy⟩)
        · exact Or.inr ⟨by simp, hc⟩
        · exact Or.inl hy
        · exact Or.inr ⟨by simp [hy], hcy⟩
      · rintro (hy | ⟨hy, hcy⟩)
        · exact Or.inl (Or.inr hy)
        · rw [List.map_cons] at hy
          rcases List.mem_cons.mp hy with rfl | hy
          · exact Or.inl (Or.inl rfl)
          · exact Or.inr ⟨hy, hcy⟩
    · rw [if_neg hc, ih]
      constructor
      · rintro (hy | ⟨hy, hcy⟩)
        · exact Or.inl hy
        · exact Or.inr ⟨by simp [hy], hcy⟩
      · rintro (hy | ⟨hy, hcy⟩)
        · exact Or.inl hy
        · rw [List.map_cons] at hy
          rcases List.mem_cons.mp hy with rfl | hy
          · exact absurd hcy hc
          · exact Or.inr ⟨hy, hcy⟩

theorem sorted_computeRemovedFilesFrom (files : Files) (ps : FilenameNodeMap) :
    ∀ acc : Files, acc.Sorted (· < ·) →
      (computeRemovedFilesFrom files acc ps).Sorted (· < ·) := by
  induction ps with
  | nil =>
    intro acc h
    exact h
  | cons p ps ih =>
    intro acc h
    simp only [computeRemovedFilesFrom]
    by_cases hc : setCount files p.1 = 0
    · rw [if_pos hc]
      exact ih _ (sorted_setInsert _ _ h)
    · rw [if_neg hc]
      exact ih _ h

theorem mapFind_loadFilesFrom (loader : String → Option Node) (fs : Files) :
    ∀ (acc : FilenameNodeMap) (f : String),
      mapFind (loadFilesFrom loader acc fs) f =
        if f ∈ fs ∧ (loader f).isSome = true then loader f else mapFind acc f := by
  induction fs with
  | nil =>
    intro acc f
    simp [loadFilesFrom]
  | cons g gs ih =>
    intro acc f
    cases hg : loader g with
    | none =>
      by_cases hf : f = g
      · subst hf
        simp [loadFilesFrom, hg, ih]
      · simp [loadFilesFrom, hg, ih, hf, List.mem_cons]
    | some n =>
      by_cases hf : f = g
      · subst hf
        by_cases hmem : f ∈ gs
        · simp [loadFilesFrom, hg, ih, hmem]
        · simp [loadFilesFrom, hg, ih, hmem, mapFind_mapInsert]
      · simp [loadFilesFrom, hg, ih, hf, List.mem_cons, mapFind_mapInsert]

theorem mem_keys_loadFilesFrom (loader : String → Option Node) (fs : Files)
    (acc : FilenameNodeMap) (f : String) :
    f ∈ (loadFilesFrom loader acc fs).map Prod.fst ↔
      f ∈ acc.map Prod.fst ∨ (f ∈ fs ∧ (loader f).isSome = true) := by
  rw [← not_iff_not, ← mapFind_eq_none_iff, mapFind_loadFilesFrom]
  by_cases hc : f ∈ fs ∧ (loader f).isSome = true
  · rw [if_pos hc]
    obtain ⟨v, hv⟩ := Option.isSome_iff_exists.mp hc.2
    simp [hv, hc]
  · rw [if_neg hc, mapFind_eq_none_iff]
    simp [hc, not_not]

theorem keys_loadFilesFrom_nodup (loader : String → Option Node) (fs : Files) :
    ∀ acc : FilenameNodeMap, (acc.map Prod.fst).Nodup →
      (∀ f ∈ fs, f ∉ acc.map Prod.fst) → fs.Nodup →
      ((loadFilesFrom loader acc fs).map Prod.fst).Nodup := by
  induction fs with
  | nil =>
    intro acc h _ _
    exact h
  | cons g gs ih =>
    intro acc hacc hdisj hnd
    rcases List.nodup_cons.mp hnd with ⟨hg, hgs⟩
    cases hload : loader g with
    | none =>
      simp only [loadFilesFrom, hload]
      exact ih acc hacc (fun f hf => hdisj f (List.mem_cons_of_mem _ hf)) hgs
    | some n =>
      simp only [loadFilesFrom, hload]
      have hfresh : g ∉ acc.map Prod.fst := hdisj g (List.mem_cons_self _ _)
      have hperm := keys_mapInsert_notMem acc g n hfresh
      refine ih _ (hperm.nodup_iff.mpr (List.nodup_cons.mpr ⟨hfresh, hacc⟩)) ?_ hgs
      intro f hf
      rw [hperm.mem_iff, List.mem_cons]
      push_neg
      refine ⟨fun hfg => hg (hfg ▸ hf), hdisj f (List.mem_cons_of_mem _ hf)⟩

/-- C1: in every polling cycle of `MasterOperation::operator()`, `newFiles`
is exactly the set of filenames read from the master file that are not
already keys of `_existingFilenameNodeMap`, and the `nodesToAdd` map built
by the load loop maps a filename to a node exactly when that filename is in
`newFiles` and `osgDB::readNodeFile` returned that node for it. -/
theorem masterOperation_newFiles_loaded_spec
    (files : Files) (m : FilenameNodeMap) (loader : String → Option Node)
    (f : String) (n : Node) :
    (f ∈ computeNewFiles files m ↔ f ∈ files ∧ f ∉ m.map Prod.fst) ∧
    (mapFind (loadFiles loader (computeNewFiles files m)) f = some n ↔
      f ∈ computeNewFiles files m ∧ loader f = some n) := by
  constructor
  · rw [computeNewFiles, mem_computeNewFilesFrom]
    simp [mapCount, List.count_eq_zero]
  · rw [loadFiles, mapFind_loadFilesFrom]
    by_cases hc : f ∈ computeNewFiles files m ∧ (loader f).isSome = true
    · rw [if_pos hc]
      constructor
      · intro h
        exact ⟨hc.1, h⟩
      · intro h
        exact h.2
    · rw [if_neg hc]
      constructor
      · intro h
        simp [mapFind] at h
      · rintro ⟨hmem, hl⟩
        exact absurd ⟨hmem, by simp [hl]⟩ hc

/-- C3: in every polling cycle of `MasterOperation::operator()` the diff is
computed while `_mutex` is held (the whole diff is modelled as one atomic
computation on the map), and `removedFiles` is exactly the set of keys of
`_existingFilenameNodeMap` that do not appear among the filenames read from
the master file. -/
theorem masterOperation_removedFiles_spec (files : Files) (m : FilenameNodeMap)
    (f : String) :
    f ∈ computeRemovedFiles files m ↔ f ∈ m.map Prod.fst ∧ f ∉ files := by
  rw [computeRemovedFiles, mem_computeRemovedFilesFrom]
  simp [setCount, List.count_eq_zero]

/-- Shared state of `MasterOperation`: `_existingFilenameNodeMap`,
`_nodesToRemove`, `_nodesToAdd`, and the released flag of
`_updatesMergedBlock` (an `OpenThreads::Block`, initially unreleased; this
program never calls `reset()` on it, so the flag only ever goes from
`false` to `true`). -/
structure MOState where
  existing : FilenameNodeMap
  nodesToRemove : Files
  nodesToAdd : FilenameNodeMap
  updatesMergedReleased : Bool
deriving DecidableEq

/-- Removal loop of `MasterOperation::update`: for each pending filename
that is a key of the map, remove its node from the scene's children
(`Group::removeChild`, first occurrence) and erase the map entry. -/
def updateRemoveFrom (m : FilenameNodeMap) (sc : List Node) :
    Files → FilenameNodeMap × List Node
  | [] => (m, sc)
  | f :: fs =>
    match mapFind m f with
    | some n => updateRemoveFrom (mapErase m f) (sc.erase n) fs
    | none => updateRemoveFrom m sc fs

/-- Addition loop of `MasterOperation::update`: add each pending node as a
child of the scene (`Group::addChild` appends) and store its entry in the
map. -/
def updateAddFrom (m : FilenameNodeMap) (sc : List Node) :
    FilenameNodeMap → FilenameNodeMap × List Node
  | [] => (m, sc)
  | p :: ps => updateAddFrom (mapInsert m p.1 p.2) (sc ++ [p.2]) ps

/-- `MasterOperation::update(osg::Group* scene)`: merge the pending removals
and additions into the scene and `_existingFilenameNodeMap`, clear both
pending collections, and release `_updatesMergedBlock`. -/
def MOState.update (st : MOState) (scene : List Node) : MOState × List Node :=
  let r1 := updateRemoveFrom st.existing scene st.nodesToRemove
  let r2 := updateAddFrom r1.1 r1.2 st.nodesToAdd
  ({ existing := r2.1, nodesToRemove := [], nodesToAdd := [],
     updatesMergedReleased := true }, r2.2)

/-- Spec-side description of the removal phase on the map: erase every
pending filename from the map. -/
def eraseKeys (m : FilenameNodeMap) (ks : Files) : FilenameNodeMap :=
  ks.foldl mapErase m

/-- Spec-side description of the removal phase on the scene: for each
pending filename that is a key of the pre-update map, remove its node from
the children. -/
def removeMappedNodes (m : FilenameNodeMap) (sc : List Node) (ks : Files) : List Node :=
  ks.foldl (fun l f =>
    match mapFind m f with
    | some n => l.erase n
    | none => l) sc

/-- Spec-side description of the addition phase on the map: store every
pending filename-to-node entry. -/
def insertEntries (m : FilenameNodeMap) (ps : FilenameNodeMap) : FilenameNodeMap :=
  ps.foldl (fun a p => mapInsert a p.1 p.2) m

theorem removeMappedNodes_mapErase (ks : Files) (f : String) :
    ∀ (m : FilenameNodeMap) (sc : List Node), f ∉ ks →
      removeMappedNodes (mapErase m f) sc ks = removeMappedNodes m sc ks := by
  induction ks with
  | nil =>
    intro m sc _
    rfl
  | cons g gs ih =>
    intro m sc hf
    simp only [List.mem_cons] at hf
    push_neg at hf
    have hg : mapFind (mapErase m f) g = mapFind m g :=
      mapFind_mapErase_ne m f g (fun hh => hf.1 hh.symm)
    simp only [removeMappedNodes, List.foldl_cons, hg]
    cases hfind : mapFind m g with
    | some n => exact ih _ _ hf.2
    | none => exact ih _ _ hf.2

theorem updateRemoveFrom_eq (ks : Files) :
    ∀ (m : FilenameNodeMap) (sc : List Node), ks.Nodup →
      updateRemoveFrom m sc ks = (eraseKeys m ks, removeMappedNodes m sc ks) := by
  induction ks with
  | nil =>
    intro m sc _
    rfl
  | cons f fs ih =>
    intro m sc hnd
    rcases List.nodup_cons.mp hnd with ⟨hf, hfs⟩
    cases hfind : mapFind m f with
    | some n =>
      have hlhs : updateRemoveFrom m sc (f :: fs) =
          updateRemoveFrom (mapErase m f) (sc.erase n) fs := by
        simp only [updateRemoveFrom, hfind]
      have hstep : removeMappedNodes m sc (f :: fs) = removeMappedNodes m (sc.erase n) fs := by
        simp only [removeMappedNodes, List.foldl_cons, hfind]
      have hkey : eraseKeys m (f :: fs) = eraseKeys (mapErase m f) fs := rfl
      rw [hlhs, ih _ _ hfs, hkey, hstep, removeMappedNodes_mapErase fs f _ _ hf]
    | none =>
      have hlhs : updateRemoveFrom m sc (f :: fs) = updateRemoveFrom m sc fs := by
        simp only [updateRemoveFrom, hfind]
      have hstep : removeMappedNodes m sc (f :: fs) = removeMappedNodes m sc fs := by
        simp only [removeMappedNodes, List.foldl_cons, hfind]
      have hkey : eraseKeys m (f :: fs) = eraseKeys m fs := by
        show List.foldl mapErase (mapErase m f) fs = List.foldl mapErase m fs
        rw [mapErase_of_find_none hfind]
      rw [hlhs, ih _ _ hfs, hkey, hstep]

theorem updateAddFrom_eq (ps : FilenameNodeMap) :
    ∀ (m : FilenameNodeMap) (sc : List Node),
      updateAddFrom m sc ps = (insertEntries m ps, sc ++ ps.map Prod.snd) := by
  induction ps with
  | nil =>
    intro m sc
    simp [updateAddFrom, insertEntries]
  | cons p ps ih =>
    intro m sc
    simp only [updateAddFrom, insertEntries, List.foldl_cons, List.map_cons]
    rw [ih]
    simp [insertEntries, List.append_assoc]

/-- C2: `MasterOperation::update(scene)` merges the pending changes: for
each filename in `_nodesToRemove` that is a key of
`_existingFilenameNodeMap`, its node is removed from the scene's children
and its entry erased; then every pending node of `_nodesToAdd` is added as
a child and its entry stored in the map; both pending collections are empty
when `update` returns.  (`_nodesToRemove` comes from a `std::set`, hence
the duplicate-freeness hypothesis.) -/
theorem masterOperation_update_merge_spec (st : MOState) (scene : List Node)
    (hnd : st.nodesToRemove.Nodup) :
    (st.update scene).1.nodesToRemove = [] ∧
    (st.update scene).1.nodesToAdd = [] ∧
    (st.update scene).1.existing =
      insertEntries (eraseKeys st.existing st.nodesToRemove) st.nodesToAdd ∧
    (st.update scene).2 =
      removeMappedNodes st.existing scene st.nodesToRemove ++ st.nodesToAdd.map Prod.snd := by
  simp only [MOState.update, updateRemoveFrom_eq _ _ _ hnd, updateAddFrom_eq]
  exact ⟨trivial, trivial, trivial, trivial⟩

/-- Witness for `masterOperation_update_merge_spec` at a concrete state. -/
theorem masterOperation_update_merge_check :
    (["a"] : Files).Nodup ∧
    ((MOState.mk [("a", 1)] ["a"] [("b", 2)] false).update [1, 5]).1.nodesToRemove = [] ∧
    ((MOState.mk [("a", 1)] ["a"] [("b", 2)] false).update [1, 5]).1.nodesToAdd = [] ∧
    ((MOState.mk [("a", 1)] ["a"] [("b", 2)] false).update [1, 5]).1.existing =
      insertEntries (eraseKeys [("a", 1)] ["a"]) [("b", 2)] ∧
    ((MOState.mk [("a", 1)] ["a"] [("b", 2)] false).update [1, 5]).2 =
      removeMappedNodes [("a", 1)] [1, 5] ["a"] ++ ([("b", 2)] : FilenameNodeMap).map Prod.snd :=
  ⟨by decide, masterOperation_update_merge_spec (MOState.mk [("a", 1)] ["a"] [("b", 2)] false)
    [1, 5] (by decide)⟩

/-- Filter presets of `osgTerrain::GeometryTechnique::setFilterMatrixAs`. -/
inductive FilterMatrixType where
  | GAUSSIAN
  | SMOOTH
  | SHARPEN
deriving DecidableEq

/-- The slice of `osgTerrain::GeometryTechnique` state touched by
`FilterHandler`: the filter preset last applied, and the filter width and
bias (`double`s in the source, modelled as exact rationals). -/
structure GeometryTechnique where
  filterMatrixType : FilterMatrixType
  filterWidth : Rat
  filterBias : Rat
deriving DecidableEq

/-- The `osgGA::GUIEventAdapter` event types relevant to the handlers. -/
inductive EventType where
  | KEYDOWN
  | KEYUP
  | PUSH
  | RELEASE
  | DOUBLECLICK
  | DRAG
  | MOVE
  | SCROLL
  | FRAME
deriving DecidableEq

structure GUIEventAdapter where
  eventType : EventType
  key : Char
deriving DecidableEq

/-- `FilterHandler::handle`: the `osg::observer_ptr` to the technique is
`none` once the technique is gone; the handler then returns false without
acting.  Otherwise KEYDOWN events on the seven filter keys mutate the
technique and return true; every other event or key returns false. -/
def FilterHandler.handle (gt : Option GeometryTechnique) (ea : GUIEventAdapter) :
    Option GeometryTechnique × Bool :=
  match gt with
  | none => (none, false)
  | some g =>
    match ea.eventType with
    | EventType.KEYDOWN =>
      if ea.key = 'g' then
        (some { g with filterMatrixType := FilterMatrixType.GAUSSIAN }, true)
      else if ea.key = 's' then
        (some { g with filterMatrixType := FilterMatrixType.SMOOTH }, true)
      else if ea.key = 'S' then
        (some { g with filterMatrixType := FilterMatrixType.SHARPEN }, true)
      else if ea.key = '+' then
        (some { g with filterWidth := g.filterWidth * (11 / 10) }, true)
      else if ea.key = '-' then
        (some { g with filterWidth := g.filterWidth / (11 / 10) }, true)
      else if ea.key = '>' then
        (some { g with filterBias := g.filterBias + 1 / 10 }, true)
      else if ea.key = '<' then
        (some { g with filterBias := g.filterBias - 1 / 10 }, true)
      else (some g, false)
    | _ => (some g, false)

/-- Spec-side predicate: the handled events as the claim describes them (a
KEYDOWN on one of the seven filter keys). -/
def filterKeyHandled (ea : GUIEventAdapter) : Bool :=
  ea.eventType == EventType.KEYDOWN &&
    (ea.key == 'g' || ea.key == 's' || ea.key == 'S' || ea.key == '+' ||
     ea.key == '-' || ea.key == '>' || ea.key == '<')

/-- C7: with a live technique, a KEYDOWN sets the filter matrix to GAUSSIAN
on g, SMOOTH on s, SHARPEN on S, multiplies the filter width by 1.1 on +,
divides it by 1.1 on -, adds 0.1 to the filter bias on >, subtracts 0.1 on
<; `handle` returns true exactly on those seven KEYDOWN keys, and returns
false for every other event or key and whenever the technique pointer is
null. -/
theorem filterHandler_handle_spec (g : GeometryTechnique) (ea : GUIEventAdapter) :
    FilterHandler.handle none ea = (none, false) ∧
    (FilterHandler.handle (some g) ea).2 = filterKeyHandled ea ∧
    FilterHandler.handle (some g) ⟨EventType.KEYDOWN, 'g'⟩ =
      (some { g with filterMatrixType := FilterMatrixType.GAUSSIAN }, true) ∧
    FilterHandler.handle (some g) ⟨EventType.KEYDOWN, 's'⟩ =
      (some { g with filterMatrixType := FilterMatrixType.SMOOTH }, true) ∧
    FilterHandler.handle (some g) ⟨EventType.KEYDOWN, 'S'⟩ =
      (some { g with filterMatrixType := FilterMatrixType.SHARPEN }, true) ∧
    FilterHandler.handle (some g) ⟨EventType.KEYDOWN, '+'⟩ =
      (some { g with filterWidth := g.filterWidth * (11 / 10) }, true) ∧
    FilterHandler.handle (some g) ⟨EventType.KEYDOWN, '-'⟩ =
      (some { g with filterWidth := g.filterWidth / (11 / 10) }, true) ∧
    FilterHandler.handle (some g) ⟨EventType.KEYDOWN, '>'⟩ =
      (some { g with filterBias := g.filterBias + 1 / 10 }, true) ∧
    FilterHandler.handle (some g) ⟨EventType.KEYDOWN, '<'⟩ =
      (some { g with filterBias := g.filterBias - 1 / 10 }, true) := by
  refine ⟨rfl, ?_, rfl, rfl, rfl, rfl, rfl, rfl, rfl⟩
  rcases ea with ⟨et, k⟩
  cases et with
  | KEYDOWN =>
    by_cases h1 : k = 'g'
    · simp [FilterHandler.handle, filterKeyHandled, h1]
    · by_cases h2 : k = 's'
      · simp [FilterHandler.handle, filterKeyHandled, h1, h2]
      · by_cases h3 : k = 'S'
        · simp [FilterHandler.handle, filterKeyHandled, h1, h2, h3]
        · by_cases h4 : k = '+'
          · simp [FilterHandler.handle, filterKeyHandled, h1, h2, h3, h4]
          · by_cases h5 : k = '-'
            · simp [FilterHandler.handle, filterKeyHandled, h1, h2, h3, h4, h5]
            · by_cases h6 : k = '>'
              · simp [FilterHandler.handle, filterKeyHandled, h1, h2, h3, h4, h5, h6]
              · by_cases h7 : k = '<'
                · simp [FilterHandler.handle, filterKeyHandled, h1, h2, h3, h4, h5, h6, h7]
                · simp [FilterHandler.handle, filterKeyHandled, h1, h2, h3, h4, h5, h6, h7]
  | KEYUP => simp [FilterHandler.handle, filterKeyHandled]
  | PUSH => simp [FilterHandler.handle, filterKeyHandled]
  | RELEASE => simp [FilterHandler.handle, filterKeyHandled]
  | DOUBLECLICK => simp [FilterHandler.handle, filterKeyHandled]
  | DRAG => simp [FilterHandler.handle, filterKeyHandled]
  | MOVE => simp [FilterHandler.handle, filterKeyHandled]
  | SCROLL => simp [FilterHandler.handle, filterKeyHandled]
  | FRAME => simp [FilterHandler.handle, filterKeyHandled]

/-- C8: `MasterOperation::readMasterFile` on a master file that opens but
contains no `file <name>` entry returns the value of the local
`readFilename`, which the source never initializes (undefined behaviour):
the first two conjuncts show the result tracking the indeterminate initial
value of that local instead of being false.  The remaining conjuncts record
the intended cases: an unopenable file yields false with the set untouched,
and a parsed entry forces true. -/
theorem readMasterFile_uninitialized_flag :
    readMasterFile true ["hello"] true [] = ([], true) ∧
    readMasterFile true ["hello"] false [] = ([], false) ∧
    readMasterFile false ["file", "cow.osg"] true ["x"] = (["x"], false) ∧
    readMasterFile true ["file", "cow.osg"] false [] = (["cow.osg"], true) := by
  refine ⟨?_, ?_, ?_, ?_⟩ <;> decide

/-- State of the `osgGA::KeySwitchMatrixManipulator` as used in `main`: the
ordered (key, name) manipulator slots and the selected slot index. -/
structure KeySwitchState where
  manips : List (Char × String)
  selectedIndex : Option Nat
deriving DecidableEq

/-- The guard `if (apm || !apm->valid())` of the `-p` branch of `main`:
`apm` was just produced by `new`, so the pointer is non-null and the first
disjunct is always true. -/
def apmGuard (apmValid : Bool) : Bool := true || !apmValid

/-- One iteration of the `while (arguments.read("-p", pathfile))` loop of
`main`: construct an `AnimationPathManipulator` (whose `valid()` is
`apmValid`), and under `apmGuard` add it under the current path key, select
it, and advance the key. -/
def processPathArg (ks : KeySwitchState) (keyForAnimationPath : Char) (apmValid : Bool) :
    KeySwitchState × Char :=
  if apmGuard apmValid then
    let num := ks.manips.length
    ({ manips := ks.manips ++ [(keyForAnimationPath, "Path")], selectedIndex := some num },
     Char.ofNat (keyForAnimationPath.toNat + 1))
  else (ks, keyForAnimationPath)

/-- C10: every `-p <pathfile>` argument adds a newly constructed
`AnimationPathManipulator` under the next path key and selects it,
regardless of the validity of the animation path: the guard
`apm || !apm->valid()` is true for every (non-null) `apm`, the manipulator
is appended under the current path key, the selected index is exactly the
index of that new entry, and the path key advances. -/
theorem animationPath_manipulator_spec (ks : KeySwitchState) (key : Char) (v : Bool) :
    apmGuard v = true ∧
    (processPathArg ks key v).1.manips = ks.manips ++ [(key, "Path")] ∧
    (processPathArg ks key v).1.selectedIndex = some ks.manips.length ∧
    (processPathArg ks key v).1.manips[ks.manips.length]? = some (key, "Path") ∧
    (processPathArg ks key v).2 = Char.ofNat (key.toNat + 1) := by
  refine ⟨rfl, rfl, rfl, ?_, rfl⟩
  show (ks.manips ++ [(key, "Path")])[ks.manips.length]? = some (key, "Path")
  exact List.getElem?_concat_length _ _

/-- An operation added to a graphics thread's operation queue by
`MasterOperation::operator()`: an `osgUtil::GLObjectsOperation` compiling a
loaded node, or an `osg::BarrierOperation` with its participant count. -/
inductive GCOp where
  | compile (n : Node)
  | barrier (count : Nat)
deriving DecidableEq

/-- The compile-context graphics threads discovered by the loop
`for (i = 0; i <= osg::GraphicsContext::getMaxContextID(); ++i)` in
`MasterOperation::operator()`: `compileThreadOf i` models
`getCompileContext(i)->getGraphicsThread()`, `none` when either the
context or its thread is null. -/
def discoverThreads (maxContextID : Nat) (compileThreadOf : Nat → Option GTId) : List GTId :=
  (List.range (maxContextID + 1)).filterMap compileThreadOf

/-- Load loop of `MasterOperation::operator()` over `newFiles`: each
successful load stores its node in `nodesToAdd`, adds one compile
operation wrapping it to every graphics thread (recorded in an
append-ordered log of (thread, operation) additions), and sets
`requiresBarrier` whenever a thread received the operation. -/
def loadNewFilesFrom (threads : List GTId) (loader : String → Option Node)
    (acc : FilenameNodeMap) (log : List (GTId × GCOp)) (rb : Bool) :
    Files → FilenameNodeMap × List (GTId × GCOp) × Bool
  | [] => (acc, log, rb)
  | f :: fs =>
    match loader f with
    | some n =>
      loadNewFilesFrom threads loader (mapInsert acc f n)
        (log ++ threads.map (fun t => (t, GCOp.compile n))) (rb || !threads.isEmpty) fs
    | none => loadNewFilesFrom threads loader acc log rb fs

structure LoadPhaseResult where
  nodesToAdd : FilenameNodeMap
  opLog : List (GTId × GCOp)
  barrierCount : Option Nat
deriving DecidableEq

/-- The `if (!newFiles.empty())` block of `MasterOperation::operator()`:
discover the compile threads, load the new files, and if any thread
received work create one barrier of `threads.size() + 1` participants, add
it to every thread, and block on it (`_barrier->block()`). -/
def operatorLoadPhase (maxContextID : Nat) (compileThreadOf : Nat → Option GTId)
    (loader : String → Option Node) (newFiles : Files) : LoadPhaseResult :=
  if newFiles.isEmpty then ⟨[], [], none⟩
  else
    let threads := discoverThreads maxContextID compileThreadOf
    let r := loadNewFilesFrom threads loader [] [] false newFiles
    if r.2.2 then
      ⟨r.1, r.2.1 ++ threads.map (fun t => (t, GCOp.barrier (threads.length + 1))),
        some (threads.length + 1)⟩
    else ⟨r.1, r.2.1, none⟩

/-- The FIFO operation queue of one graphics thread, as recorded by the
log of additions. -/
def queueOf (log : List (GTId × GCOp)) (t : GTId) : List GCOp :=
  (log.filter (fun p => p.1 == t)).map Prod.snd

def isCompileOp : GCOp → Bool
  | GCOp.compile _ => true
  | GCOp.barrier _ => false

/-- Spec-side description of the compile additions: one operation per
loaded node, added to every thread, in load order. -/
def compileLogFor (threads : List GTId) : List Node → List (GTId × GCOp)
  | [] => []
  | n :: ns => threads.map (fun t => (t, GCOp.compile n)) ++ compileLogFor threads ns

theorem queueOf_append (l1 l2 : List (GTId × GCOp)) (t : GTId) :
    queueOf (l1 ++ l2) t = queueOf l1 t ++ queueOf l2 t := by
  simp [queueOf, List.filter_append]

theorem queueOf_map_not_mem (ts : List GTId) (op : GCOp) (t : GTId) (h : t ∉ ts) :
    queueOf (ts.map (fun u => (u, op))) t = [] := by
  induction ts with
  | nil => rfl
  | cons a as ih =>
    simp only [List.mem_cons] at h
    push_neg at h
    have ha : ¬(a == t) = true := by
      simp [Ne.symm h.1]
    simp only [queueOf, List.map_cons, List.filter_cons, ha]
    exact ih h.2

theorem queueOf_map_self (ts : List GTId) (op : GCOp) (t : GTId)
    (hnd : ts.Nodup) (h : t ∈ ts) :
    queueOf (ts.map (fun u => (u, op))) t = [op] := by
  induction ts with
  | nil => simp at h
  | cons a as ih =>
    rcases List.nodup_cons.mp hnd with ⟨hna, hnas⟩
    rcases List.mem_cons.mp h with rfl | hmem
    · simp only [queueOf, List.map_cons, List.filter_cons, beq_self_eq_true, if_pos]
      have := queueOf_map_not_mem as op t hna
      simp only [queueOf] at this
      simp [this]
    · have ha : ¬(a == t) = true := by
        have : a ≠ t := fun hh => hna (hh ▸ hmem)
        simp [this]
      simp only [queueOf, List.map_cons, List.filter_cons, ha]
      exact ih hnas hmem

theorem queueOf_compileLogFor_mem (threads : List GTId) (ns : List Node) (t : GTId)
    (hnd : threads.Nodup) (h : t ∈ threads) :
    queueOf (compileLogFor threads ns) t = ns.map GCOp.compile := by
  induction ns with
  | nil => rfl
  | cons n ns ih =>
    simp only [compileLogFor, queueOf_append, List.map_cons]
    rw [queueOf_map_self threads (GCOp.compile n) t hnd h, ih]
    rfl

theorem mem_compileLogFor {threads : List GTId} {ns : List Node}
    {p : GTId × GCOp} (h : p ∈ compileLogFor threads ns) :
    ∃ n, p.2 = GCOp.compile n := by
  induction ns with
  | nil => simp [compileLogFor] at h
  | cons n ns ih =>
    simp only [compileLogFor, List.mem_append] at h
    rcases h with h | h
    · rcases List.mem_map.mp h with ⟨u, _, rfl⟩
      exact ⟨n, rfl⟩
    · exact ih h

theorem loadNewFilesFrom_spec (threads : List GTId) (loader : String → Option Node)
    (fs : Files) :
    ∀ (acc : FilenameNodeMap) (log : List (GTId × GCOp)) (rb : Bool),
      loadNewFilesFrom threads loader acc log rb fs =
        (loadFilesFrom loader acc fs,
         log ++ compileLogFor threads (fs.filterMap loader),
         rb || (!threads.isEmpty && !(fs.filterMap loader).isEmpty)) := by
  induction fs with
  | nil =>
    intro acc log rb
    simp [loadNewFilesFrom, loadFilesFrom, compileLogFor]
  | cons f fs ih =>
    intro acc log rb
    cases hload : loader f with
    | none =>
      simp only [loadNewFilesFrom, hload]
      rw [ih]
      simp [loadFilesFrom, hload, List.filterMap_cons]
    | some n =>
      simp only [loadNewFilesFrom, hload]
      rw [ih]
      simp only [loadFilesFrom, hload, List.filterMap_cons, compileLogFor, Prod.mk.injEq]
      refine ⟨trivial, ?_, ?_⟩
      · rw [List.append_assoc]
      · cases rb <;> cases hte : threads.isEmpty <;>
          cases hfe : (fs.filterMap loader).isEmpty <;> simp [hte, hfe]

theorem exists_loaded_iff (loader : String → Option Node) (fs : Files) :
    (∃ f ∈ fs, (loader f).isSome = true) ↔ fs.filterMap loader ≠ [] := by
  rw [Ne, List.filterMap_eq_nil_iff]
  push_neg
  constructor
  · rintro ⟨f, hf, hs⟩
    exact ⟨f, hf, Option.ne_none_iff_isSome.mpr hs⟩
  · rintro ⟨f, hf, hn⟩
    exact ⟨f, hf, Option.ne_none_iff_isSome.mp hn⟩

theorem operatorLoadPhase_eq (maxContextID : Nat) (ctof : Nat → Option GTId)
    (loader : String → Option Node) (newFiles : Files)
    (h : ¬newFiles.isEmpty = true) :
    operatorLoadPhase maxContextID ctof loader newFiles =
      if (!(discoverThreads maxContextID ctof).isEmpty &&
          !(newFiles.filterMap loader).isEmpty) = true then
        ⟨loadFiles loader newFiles,
         compileLogFor (discoverThreads maxContextID ctof) (newFiles.filterMap loader) ++
           (discoverThreads maxContextID ctof).map
             (fun t => (t, GCOp.barrier ((discoverThreads maxContextID ctof).length + 1))),
         some ((discoverThreads maxContextID ctof).length + 1)⟩
      else
        ⟨loadFiles loader newFiles,
         compileLogFor (discoverThreads maxContextID ctof) (newFiles.filterMap loader),
         none⟩ := by
  simp only [operatorLoadPhase, if_neg h, loadNewFilesFrom_spec, loadFiles,
    List.nil_append, Bool.false_or]

/-- C5: whenever at least one new model loads successfully and at least one
compile graphics-context thread exists, the load phase of
`MasterOperation::operator()` creates a `BarrierOperation` with
`threads.size() + 1` participants and adds it to every graphics thread
behind that thread's compile operations, so that blocking on the barrier
(`_barrier->block()`) means every GPU compile operation has completed
before the loaded nodes are handed off; when no compile thread received
work, no barrier operation is created at all.  Distinct contexts own
distinct graphics threads, hence the duplicate-freeness hypothesis. -/
theorem masterOperation_barrier_spec (maxContextID : Nat)
    (compileThreadOf : Nat → Option GTId) (loader : String → Option Node)
    (newFiles : Files)
    (hnd : (discoverThreads maxContextID compileThreadOf).Nodup) :
    ((∃ f ∈ newFiles, (loader f).isSome = true) ∧
        discoverThreads maxContextID compileThreadOf ≠ [] →
      (operatorLoadPhase maxContextID compileThreadOf loader newFiles).barrierCount =
          some ((discoverThreads maxContextID compileThreadOf).length + 1) ∧
      ∀ t ∈ discoverThreads maxContextID compileThreadOf,
        ∃ pre,
          queueOf (operatorLoadPhase maxContextID compileThreadOf loader newFiles).opLog t =
            pre ++ [GCOp.barrier ((discoverThreads maxContextID compileThreadOf).length + 1)] ∧
          ∀ op ∈ pre, isCompileOp op = true) ∧
    (¬((∃ f ∈ newFiles, (loader f).isSome = true) ∧
        discoverThreads maxContextID compileThreadOf ≠ []) →
      (operatorLoadPhase maxContextID compileThreadOf loader newFiles).barrierCount = none ∧
      ∀ p ∈ (operatorLoadPhase maxContextID compileThreadOf loader newFiles).opLog,
        isCompileOp p.2 = true) := by
  by_cases hempty : newFiles.isEmpty = true
  · have hnil : newFiles = [] := List.isEmpty_iff.mp hempty
    subst hnil
    constructor
    · rintro ⟨⟨f, hf, _⟩, _⟩
      simp at hf
    · intro _
      constructor
      · rfl
      · intro p hp
        simp [operatorLoadPhase] at hp
  · rw [operatorLoadPhase_eq maxContextID compileThreadOf loader newFiles hempty]
    constructor
    · rintro ⟨hex, hth⟩
      have hloaded : newFiles.filterMap loader ≠ [] := (exists_loaded_iff loader newFiles).mp hex
      have hrb : (!(discoverThreads maxContextID compileThreadOf).isEmpty &&
          !(newFiles.filterMap loader).isEmpty) = true := by
        simp only [Bool.and_eq_true, Bool.not_eq_true']
        exact ⟨by simpa using hth, by simpa using hloaded⟩
      rw [if_pos hrb]
      refine ⟨rfl, ?_⟩
      intro t ht
      refine ⟨(newFiles.filterMap loader).map GCOp.compile, ?_, ?_⟩
      · rw [queueOf_append, queueOf_compileLogFor_mem _ _ _ hnd ht,
          queueOf_map_self _ _ _ hnd ht]
      · intro op hop
        rcases List.mem_map.mp hop with ⟨n, _, rfl⟩
        rfl
    · intro hneg
      have hrb : ¬(!(discoverThreads maxContextID compileThreadOf).isEmpty &&
          !(newFiles.filterMap loader).isEmpty) = true := by
        intro hcontra
        simp only [Bool.and_eq_true, Bool.not_eq_true'] at hcontra
        refine hneg ⟨(exists_loaded_iff loader newFiles).mpr ?_, ?_⟩
        · simpa using hcontra.2
        · simpa using hcontra.1
      rw [if_neg hrb]
      refine ⟨rfl, ?_⟩
      intro p hp
      rcases mem_compileLogFor hp with ⟨n, hn⟩
      rw [hn]
      rfl

theorem mapFind_loadFiles_iff (loader : String → Option Node) (fs : Files)
    (f : String) (n : Node) :
    mapFind (loadFiles loader fs) f = some n ↔ f ∈ fs ∧ loader f = some n := by
  rw [loadFiles, mapFind_loadFilesFrom]
  by_cases hc : f ∈ fs ∧ (loader f).isSome = true
  · rw [if_pos hc]
    constructor
    · intro h
      exact ⟨hc.1, h⟩
    · intro h
      exact h.2
  · rw [if_neg hc]
    constructor
    · intro h
      simp [mapFind] at h
    · rintro ⟨hmem, hl⟩
      exact absurd ⟨hmem, by simp [hl]⟩ hc

/-- C6: the discovered threads are exactly the compile-context graphics
threads for context IDs 0 through `getMaxContextID()`; a filename is in
`nodesToAdd` exactly when it is a listed new file whose load succeeded, so
failed loads are not recorded; and for each successfully loaded model one
`GLObjectsOperation` wrapping it is added to every discovered thread, in
load order (the compile operations in each thread's queue are exactly the
loaded nodes). -/
theorem masterOperation_compile_spec (maxContextID : Nat)
    (compileThreadOf : Nat → Option GTId) (loader : String → Option Node)
    (newFiles : Files)
    (hnd : (discoverThreads maxContextID compileThreadOf).Nodup) :
    (∀ t, t ∈ discoverThreads maxContextID compileThreadOf ↔
      ∃ i, i ≤ maxContextID ∧ compileThreadOf i = some t) ∧
    (∀ f n,
      mapFind (operatorLoadPhase maxContextID compileThreadOf loader newFiles).nodesToAdd f =
          some n ↔ f ∈ newFiles ∧ loader f = some n) ∧
    (∀ t ∈ discoverThreads maxContextID compileThreadOf,
      (queueOf (operatorLoadPhase maxContextID compileThreadOf loader newFiles).opLog t).filter
          isCompileOp = (newFiles.filterMap loader).map GCOp.compile) := by
  have hdisc : ∀ t, t ∈ discoverThreads maxContextID compileThreadOf ↔
      ∃ i, i ≤ maxContextID ∧ compileThreadOf i = some t := by
    intro t
    rw [discoverThreads, List.mem_filterMap]
    constructor
    · rintro ⟨i, hi, hit⟩
      exact ⟨i, Nat.lt_succ_iff.mp (List.mem_range.mp hi), hit⟩
    · rintro ⟨i, hi, hit⟩
      exact ⟨i, List.mem_range.mpr (Nat.lt_succ_iff.mpr hi), hit⟩
  have hfilter : ((newFiles.filterMap loader).map GCOp.compile).filter isCompileOp =
      (newFiles.filterMap loader).map GCOp.compile := by
    rw [List.filter_eq_self]
    intro op hop
    rcases List.mem_map.mp hop with ⟨n, _, rfl⟩
    rfl
  by_cases hempty : newFiles.isEmpty = true
  · have hnil : newFiles = [] := List.isEmpty_iff.mp hempty
    subst hnil
    refine ⟨hdisc, ?_, ?_⟩
    · intro f n
      constructor
      · intro h
        simp [operatorLoadPhase, mapFind] at h
      · rintro ⟨hmem, _⟩
        simp at hmem
    · intro t ht
      rfl
  · rw [operatorLoadPhase_eq maxContextID compileThreadOf loader newFiles hempty]
    by_cases hrb : (!(discoverThreads maxContextID compileThreadOf).isEmpty &&
        !(newFiles.filterMap loader).isEmpty) = true
    · rw [if_pos hrb]
      refine ⟨hdisc, ?_, ?_⟩
      · intro f n
        exact mapFind_loadFiles_iff loader newFiles f n
      · intro t ht
        rw [queueOf_append, queueOf_compileLogFor_mem _ _ _ hnd ht,
          queueOf_map_self _ _ _ hnd ht, List.filter_append, hfilter]
        simp [isCompileOp]
    · rw [if_neg hrb]
      refine ⟨hdisc, ?_, ?_⟩
      · intro f n
        exact mapFind_loadFiles_iff loader newFiles f n
      · intro t ht
        rw [queueOf_compileLogFor_mem _ _ _ hnd ht, hfilter]

/-- Concrete context-to-thread oracle for the barrier witness: context 0
has a compile thread, context 1 does not. -/
def barrierCtof : Nat → Option GTId := fun i => if i = 0 then some 7 else none

/-- Concrete loader for the barrier witness. -/
def barrierLoader : String → Option Node := fun f => if f = "cow.osg" then some 3 else none

/-- Witness for `masterOperation_barrier_spec` at concrete inputs. -/
theorem masterOperation_barrier_check :
    (discoverThreads 1 barrierCtof).Nodup ∧
    (((∃ f ∈ ["cow.osg"], (barrierLoader f).isSome = true) ∧
        discoverThreads 1 barrierCtof ≠ [] →
      (operatorLoadPhase 1 barrierCtof barrierLoader ["cow.osg"]).barrierCount =
          some ((discoverThreads 1 barrierCtof).length + 1) ∧
      ∀ t ∈ discoverThreads 1 barrierCtof,
        ∃ pre,
          queueOf (operatorLoadPhase 1 barrierCtof barrierLoader ["cow.osg"]).opLog t =
            pre ++ [GCOp.barrier ((discoverThreads 1 barrierCtof).length + 1)] ∧
          ∀ op ∈ pre, isCompileOp op = true) ∧
    (¬((∃ f ∈ ["cow.osg"], (barrierLoader f).isSome = true) ∧
        discoverThreads 1 barrierCtof ≠ []) →
      (operatorLoadPhase 1 barrierCtof barrierLoader ["cow.osg"]).barrierCount = none ∧
      ∀ p ∈ (operatorLoadPhase 1 barrierCtof barrierLoader ["cow.osg"]).opLog,
        isCompileOp p.2 = true)) :=
  ⟨by decide, masterOperation_barrier_spec 1 barrierCtof barrierLoader ["cow.osg"] (by decide)⟩

/-- Concrete context-to-thread oracle for the compile witness. -/
def compileCtof : Nat → Option GTId := fun i => if i = 0 then some 4 else none

/-- Concrete loader for the compile witness: one file loads, one fails. -/
def compileLoader : String → Option Node :=
  fun f => if f = "cow.osg" then some 3 else none

/-- Witness for `masterOperation_compile_spec` at concrete inputs. -/
theorem masterOperation_compile_check :
    (discoverThreads 0 compileCtof).Nodup ∧
    ((∀ t, t ∈ discoverThreads 0 compileCtof ↔
      ∃ i, i ≤ 0 ∧ compileCtof i = some t) ∧
    (∀ f n,
      mapFind (operatorLoadPhase 0 compileCtof compileLoader
          ["bad.osg", "cow.osg"]).nodesToAdd f = some n ↔
        f ∈ ["bad.osg", "cow.osg"] ∧ compileLoader f = some n) ∧
    (∀ t ∈ discoverThreads 0 compileCtof,
      (queueOf (operatorLoadPhase 0 compileCtof compileLoader
          ["bad.osg", "cow.osg"]).opLog t).filter isCompileOp =
        ((["bad.osg", "cow.osg"] : Files).filterMap compileLoader).map GCOp.compile)) :=
  ⟨by decide, masterOperation_compile_spec 0 compileCtof compileLoader
    ["bad.osg", "cow.osg"] (by decide)⟩

theorem openLoadFrom_spec (loader : String → Option Node) (fs : Files) :
    ∀ (m : FilenameNodeMap) (sc : List Node),
      openLoadFrom loader m sc fs = (loadFilesFrom loader m fs, sc ++ fs.filterMap loader) := by
  induction fs with
  | nil =>
    intro m sc
    simp [openLoadFrom, loadFilesFrom]
  | cons f fs ih =>
    intro m sc
    cases hload : loader f with
    | none =>
      simp only [openLoadFrom, hload]
      rw [ih]
      simp [loadFilesFrom, hload, List.filterMap_cons]
    | some n =>
      simp only [openLoadFrom, hload]
      rw [ih]
      simp [loadFilesFrom, hload, List.filterMap_cons, List.append_assoc]

theorem snds_loadFilesFrom_perm (loader : String → Option Node) (fs : Files) :
    ∀ acc : FilenameNodeMap, (∀ f ∈ fs, f ∉ acc.map Prod.fst) → fs.Nodup →
      List.Perm ((loadFilesFrom loader acc fs).map Prod.snd)
        (acc.map Prod.snd ++ fs.filterMap loader) := by
  induction fs with
  | nil =>
    intro acc _ _
    simp [loadFilesFrom]
  | cons g gs ih =>
    intro acc hdisj hnd
    rcases List.nodup_cons.mp hnd with ⟨hg, hgs⟩
    cases hload : loader g with
    | none =>
      simp only [loadFilesFrom, hload, List.filterMap_cons, List.mem_cons]
      exact ih acc (fun f hf => hdisj f (List.mem_cons_of_mem _ hf)) hgs
    | some n =>
      simp only [loadFilesFrom, hload, List.filterMap_cons]
      have hfresh : g ∉ acc.map Prod.fst := hdisj g (List.mem_cons_self _ _)
      have hkp := keys_mapInsert_notMem acc g n hfresh
      have hsp := snds_mapInsert_notMem acc g n hfresh
      have hdisj' : ∀ f ∈ gs, f ∉ (mapInsert acc g n).map Prod.fst := by
        intro f hf
        rw [hkp.mem_iff, List.mem_cons]
        push_neg
        exact ⟨fun hfg => hg (hfg ▸ hf), hdisj f (List.mem_cons_of_mem _ hf)⟩
      have h1 := ih (mapInsert acc g n) hdisj' hgs
      refine h1.trans ?_
      refine (hsp.append_right (gs.filterMap loader)).trans ?_
      exact List.perm_middle.symm

/-- Worker-thread phase: polling (executing or about to execute
`operator()`) or blocked inside `_updatesMergedBlock.block()`. -/
inductive WPhase where
  | polling
  | waiting
deriving DecidableEq

/-- Combined state of the concurrent system: the `MasterOperation` shared
state, the scene children owned by the operation (nodes it added and has
not removed), the worker phase, and a ghost flag set at hand-off and
cleared by `update`, marking that a merge is pending. -/
structure SysState where
  mo : MOState
  scene : List Node
  phase : WPhase
  pendingMerge : Bool
deriving DecidableEq

/-- State after `MasterOperation::open(group)`: the loadable master files
are in the map and the scene, nothing is pending, `_updatesMergedBlock`
starts unreleased, and the worker is about to poll. -/
def initState (loader : String → Option Node) (files : Files) : SysState :=
  { mo := { existing := (openLoad loader files).1, nodesToRemove := [], nodesToAdd := [],
            updatesMergedReleased := false },
    scene := (openLoad loader files).2, phase := WPhase.polling, pendingMerge := false }

/-- One polling cycle of `MasterOperation::operator()` with the given
master-file contents and load results: diff under `_mutex`, load the new
files, then either swap the local changes into the shared
`_nodesToRemove`/`_nodesToAdd` under `_mutex` and block on
`_updatesMergedBlock`, or yield when there is nothing to merge.  The
GPU-compile part of the cycle touches only the graphics threads and is
modelled by `operatorLoadPhase`. -/
def cycleStep (s : SysState) (files : Files) (loader : String → Option Node) : SysState :=
  let removedFiles := computeRemovedFiles files s.mo.existing
  let nodesToAdd := loadFiles loader (computeNewFiles files s.mo.existing)
  if removedFiles ≠ [] ∨ nodesToAdd ≠ [] then
    { s with mo := { s.mo with nodesToRemove := removedFiles, nodesToAdd := nodesToAdd },
             phase := WPhase.waiting, pendingMerge := true }
  else s

/-- `MasterOperation::update(scene)` performed by the main thread each
frame. -/
def updateStep (s : SysState) : SysState :=
  { s with mo := (s.mo.update s.scene).1, scene := (s.mo.update s.scene).2,
           pendingMerge := false }

/-- The worker returns from `_updatesMergedBlock.block()` and resumes
polling; only possible once the block has been released. -/
def unblockStep (s : SysState) : SysState :=
  { s with phase := WPhase.polling }

/-- `MasterOperation::release()` (thread-cancellation path): releases
`_updatesMergedBlock`. -/
def releaseStep (s : SysState) : SysState :=
  { s with mo := { s.mo with updatesMergedReleased := true } }

/-- One transition of the system.  The hypotheses on `cycle` model that
`osgDB::readNodeFile` allocates fresh nodes: the loaded nodes are pairwise
distinct and distinct from every node already in the map. -/
inductive Step : SysState → SysState → Prop where
  | cycle (s : SysState) (files : Files) (loader : String → Option Node)
      (hphase : s.phase = WPhase.polling)
      (hvals : ((loadFiles loader (computeNewFiles files s.mo.existing)).map Prod.snd).Nodup)
      (hfresh : ∀ n ∈ (loadFiles loader (computeNewFiles files s.mo.existing)).map Prod.snd,
          n ∉ s.mo.existing.map Prod.snd) :
      Step s (cycleStep s files loader)
  | update (s : SysState) : Step s (updateStep s)
  | unblock (s : SysState) (hphase : s.phase = WPhase.waiting)
      (hrel : s.mo.updatesMergedReleased = true) : Step s (unblockStep s)
  | release (s : SysState) : Step s (releaseStep s)

/-- Reachable system states: start from `open` on a duplicate-free master
list whose loads produced distinct nodes, then take any number of steps. -/
inductive Reach : SysState → Prop where
  | init (loader : String → Option Node) (files : Files)
      (hnd : files.Nodup) (hvals : (openLoad loader files).2.Nodup) :
      Reach (initState loader files)
  | step {s t : SysState} (h : Reach s) (hs : Step s t) : Reach t

/-- C4: when a polling cycle produced a non-empty `removedFiles` or a
non-empty `nodesToAdd`, `MasterOperation::operator()` swaps them into the
shared `_nodesToRemove`/`_nodesToAdd` under `_mutex` and then blocks on
`_updatesMergedBlock` (enters the waiting phase), while with no changes it
yields and keeps polling; the worker leaves the waiting phase only when
the block has been released, and the only transitions that release an
unreleased block are `update()` and `release()`. -/
theorem masterOperation_handoff_blocking_spec (s : SysState) (files : Files)
    (loader : String → Option Node) (hp : s.phase = WPhase.polling) :
    ((computeRemovedFiles files s.mo.existing ≠ [] ∨
        loadFiles loader (computeNewFiles files s.mo.existing) ≠ []) →
      (cycleStep s files loader).phase = WPhase.waiting ∧
      (cycleStep s files loader).mo.nodesToRemove =
        computeRemovedFiles files s.mo.existing ∧
      (cycleStep s files loader).mo.nodesToAdd =
        loadFiles loader (computeNewFiles files s.mo.existing) ∧
      (cycleStep s files loader).pendingMerge = true) ∧
    ((¬(computeRemovedFiles files s.mo.existing ≠ [] ∨
        loadFiles loader (computeNewFiles files s.mo.existing) ≠ [])) →
      cycleStep s files loader = s) ∧
    (∀ t u : SysState, Step t u → t.phase = WPhase.waiting →
      u.phase = WPhase.polling → t.mo.updatesMergedReleased = true) ∧
    (∀ t u : SysState, Step t u → t.mo.updatesMergedReleased = false →
      u.mo.updatesMergedReleased = true → u = updateStep t ∨ u = releaseStep t) := by
  refine ⟨?_, ?_, ?_, ?_⟩
  · intro h
    simp only [cycleStep]
    rw [if_pos h]
    exact ⟨rfl, rfl, rfl, rfl⟩
  · intro h
    simp only [cycleStep]
    rw [if_neg h]
  · intro t u hstep h1 h2
    cases hstep with
    | cycle cf cl hphase hvals hfresh =>
      rw [hphase] at h1
      simp at h1
    | update =>
      simp only [updateStep, h1] at h2
      simp at h2
    | unblock hphase hrel =>
      exact hrel
    | release =>
      simp only [releaseStep, h1] at h2
      simp at h2
  · intro t u hstep h3 h4
    cases hstep with
    | cycle cf cl hphase hvals hfresh =>
      simp only [cycleStep] at h4
      split at h4 <;> simp_all
    | update =>
      exact Or.inl rfl
    | unblock hphase hrel =>
      rw [h3] at hrel
      simp at hrel
    | release =>
      exact Or.inr rfl

def emptyLoader : String → Option Node := fun _ => none

/-- Witness for `masterOperation_handoff_blocking_spec` at a concrete
polling state. -/
theorem masterOperation_handoff_blocking_check :
    (initState emptyLoader []).phase = WPhase.polling ∧
    (((computeRemovedFiles ["a.osg"] (initState emptyLoader []).mo.existing ≠ [] ∨
        loadFiles emptyLoader
          (computeNewFiles ["a.osg"] (initState emptyLoader []).mo.existing) ≠ []) →
      (cycleStep (initState emptyLoader []) ["a.osg"] emptyLoader).phase = WPhase.waiting ∧
      (cycleStep (initState emptyLoader []) ["a.osg"] emptyLoader).mo.nodesToRemove =
        computeRemovedFiles ["a.osg"] (initState emptyLoader []).mo.existing ∧
      (cycleStep (initState emptyLoader []) ["a.osg"] emptyLoader).mo.nodesToAdd =
        loadFiles emptyLoader
          (computeNewFiles ["a.osg"] (initState emptyLoader []).mo.existing) ∧
      (cycleStep (initState emptyLoader []) ["a.osg"] emptyLoader).pendingMerge = true) ∧
    ((¬(computeRemovedFiles ["a.osg"] (initState emptyLoader []).mo.existing ≠ [] ∨
        loadFiles emptyLoader
          (computeNewFiles ["a.osg"] (initState emptyLoader []).mo.existing) ≠ [])) →
      cycleStep (initState emptyLoader []) ["a.osg"] emptyLoader = initState emptyLoader []) ∧
    (∀ t u : SysState, Step t u → t.phase = WPhase.waiting →
      u.phase = WPhase.polling → t.mo.updatesMergedReleased = true) ∧
    (∀ t u : SysState, Step t u → t.mo.updatesMergedReleased = false →
      u.mo.updatesMergedReleased = true → u = updateStep t ∨ u = releaseStep t)) :=
  ⟨rfl, masterOperation_handoff_blocking_spec (initState emptyLoader []) ["a.osg"]
    emptyLoader rfl⟩

/-- Well-formedness of a pending merge: pending additions have fresh,
duplicate-free keys and fresh, duplicate-free nodes. -/
def PendingInv (mo : MOState) : Prop :=
  (∀ f ∈ mo.nodesToAdd.map Prod.fst, f ∉ mo.existing.map Prod.fst) ∧
  (mo.nodesToAdd.map Prod.fst).Nodup ∧
  (mo.nodesToAdd.map Prod.snd).Nodup ∧
  (∀ n ∈ mo.nodesToAdd.map Prod.snd, n ∉ mo.existing.map Prod.snd)

/-- System invariant: the map has duplicate-free keys and values, its
values are (as a multiset) exactly the operation-owned scene children, the
pending collections are empty unless a merge is pending, and a pending
merge is well-formed. -/
def SysInv (s : SysState) : Prop :=
  (s.mo.existing.map Prod.fst).Nodup ∧
  (s.mo.existing.map Prod.snd).Nodup ∧
  List.Perm (s.mo.existing.map Prod.snd) s.scene ∧
  (s.pendingMerge = false → s.mo.nodesToRemove = [] ∧ s.mo.nodesToAdd = []) ∧
  (s.pendingMerge = true → PendingInv s.mo)

theorem updateRemoveFrom_inv (ks : Files) :
    ∀ (m : FilenameNodeMap) (sc : List Node),
      (m.map Prod.fst).Nodup → (m.map Prod.snd).Nodup →
      List.Perm (m.map Prod.snd) sc →
      ((updateRemoveFrom m sc ks).1.map Prod.fst).Nodup ∧
      ((updateRemoveFrom m sc ks).1.map Prod.snd).Nodup ∧
      List.Perm ((updateRemoveFrom m sc ks).1.map Prod.snd) (updateRemoveFrom m sc ks).2 ∧
      (∀ x ∈ (updateRemoveFrom m sc ks).1.map Prod.fst, x ∈ m.map Prod.fst) ∧
      (∀ x ∈ (updateRemoveFrom m sc ks).1.map Prod.snd, x ∈ m.map Prod.snd) := by
  induction ks with
  | nil =>
    intro m sc h1 h2 h3
    exact ⟨h1, h2, h3, fun x hx => hx, fun x hx => hx⟩
  | cons f fs ih =>
    intro m sc h1 h2 h3
    cases hfind : mapFind m f with
    | none =>
      simp only [updateRemoveFrom, hfind]
      exact ih m sc h1 h2 h3
    | some n =>
      simp only [updateRemoveFrom, hfind]
      have hkeys : (mapErase m f).map Prod.fst = (m.map Prod.fst).erase f :=
        keys_mapErase m f
      have hsnds : (mapErase m f).map Prod.snd = (m.map Prod.snd).erase n :=
        snds_mapErase h1 h2 hfind
      have h1' : ((mapErase m f).map Prod.fst).Nodup := by
        rw [hkeys]
        exact h1.erase f
      have h2' : ((mapErase m f).map Prod.snd).Nodup := by
        rw [hsnds]
        exact h2.erase n
      have h3' : List.Perm ((mapErase m f).map Prod.snd) (sc.erase n) := by
        rw [hsnds]
        exact h3.erase n
      obtain ⟨a1, a2, a3, a4, a5⟩ := ih (mapErase m f) (sc.erase n) h1' h2' h3'
      refine ⟨a1, a2, a3, ?_, ?_⟩
      · intro x hx
        have hx' := a4 x hx
        rw [hkeys] at hx'
        exact List.mem_of_mem_erase hx'
      · intro x hx
        have hx' := a5 x hx
        rw [hsnds] at hx'
        exact List.mem_of_mem_erase hx'

theorem updateAddFrom_inv (ps : FilenameNodeMap) :
    ∀ (m : FilenameNodeMap) (sc : List Node),
      (m.map Prod.fst).Nodup → (m.map Prod.snd).Nodup →
      List.Perm (m.map Prod.snd) sc →
      (∀ f ∈ ps.map Prod.fst, f ∉ m.map Prod.fst) → (ps.map Prod.fst).Nodup →
      (ps.map Prod.snd).Nodup → (∀ n ∈ ps.map Prod.snd, n ∉ m.map Prod.snd) →
      ((updateAddFrom m sc ps).1.map Prod.fst).Nodup ∧
      ((updateAddFrom m sc ps).1.map Prod.snd).Nodup ∧
      List.Perm ((updateAddFrom m sc ps).1.map Prod.snd) (updateAddFrom m sc ps).2 := by
  induction ps with
  | nil =>
    intro m sc h1 h2 h3 _ _ _ _
    exact ⟨h1, h2, h3⟩
  | cons p ps ih =>
    intro m sc h1 h2 h3 hE hD hF hG
    simp only [List.map_cons, List.nodup_cons] at hD hF
    have hfresh : p.1 ∉ m.map Prod.fst := hE p.1 (by simp)
    have hnfresh : p.2 ∉ m.map Prod.snd := hG p.2 (by simp)
    have hkp := keys_mapInsert_notMem m p.1 p.2 hfresh
    have hsp := snds_mapInsert_notMem m p.1 p.2 hfresh
    have h1' : ((mapInsert m p.1 p.2).map Prod.fst).Nodup :=
      hkp.nodup_iff.mpr (List.nodup_cons.mpr ⟨hfresh, h1⟩)
    have h2' : ((mapInsert m p.1 p.2).map Prod.snd).Nodup :=
      hsp.nodup_iff.mpr (List.nodup_cons.mpr ⟨hnfresh, h2⟩)
    have h3' : List.Perm ((mapInsert m p.1 p.2).map Prod.snd) (sc ++ [p.2]) := by
      refine hsp.trans ?_
      refine ((h3.cons p.2).trans ?_)
      exact (List.perm_append_singleton p.2 sc).symm
    simp only [updateAddFrom]
    apply ih _ _ h1' h2' h3'
    · intro f hf
      rw [hkp.mem_iff, List.mem_cons]
      push_neg
      refine ⟨fun hfg => hD.1 (hfg ▸ hf), hE f (by simp [hf])⟩
    · exact hD.2
    · exact hF.2
    · intro n hn
      rw [hsp.mem_iff, List.mem_cons]
      push_neg
      refine ⟨fun hng => hF.1 (hng ▸ hn), hG n (by simp [hn])⟩

theorem reach_inv {s : SysState} (h : Reach s) : SysInv s := by
  induction h with
  | init loader files hnd hvals =>
    have hopen : openLoad loader files = (loadFiles loader files, files.filterMap loader) := by
      rw [openLoad, openLoadFrom_spec]
      simp [loadFiles]
    have hkeys : ((loadFiles loader files).map Prod.fst).Nodup :=
      keys_loadFilesFrom_nodup loader files [] (by simp) (by simp) hnd
    have hperm : List.Perm ((loadFiles loader files).map Prod.snd) (files.filterMap loader) := by
      simpa [loadFiles] using snds_loadFilesFrom_perm loader files [] (by simp) hnd
    have hscene_nd : (files.filterMap loader).Nodup := by
      rw [hopen] at hvals
      exact hvals
    refine ⟨?_, ?_, ?_, fun _ => ⟨rfl, rfl⟩, fun hco => Bool.noConfusion hco⟩
    · show ((openLoad loader files).1.map Prod.fst).Nodup
      rw [hopen]
      exact hkeys
    · show ((openLoad loader files).1.map Prod.snd).Nodup
      rw [hopen]
      exact hperm.nodup_iff.mpr hscene_nd
    · show List.Perm ((openLoad loader files).1.map Prod.snd) (openLoad loader files).2
      rw [hopen]
      exact hperm
  | step hr hs ih =>
    obtain ⟨i1, i2, i3, i4, i5⟩ := ih
    rename_i s0 t0
    cases hs with
    | cycle cf cl hphase hvals hfresh =>
      simp only [cycleStep]
      split
      · refine ⟨i1, i2, i3, fun hco => Bool.noConfusion hco, fun _ => ?_⟩
        refine ⟨?_, ?_, hvals, hfresh⟩
        · intro f hf
          simp only [loadFiles] at hf
          rcases (mem_keys_loadFilesFrom cl (computeNewFiles cf s0.mo.existing) [] f).mp hf with
            hacc | ⟨hnew, _⟩
          · simp at hacc
          · rcases (mem_computeNewFilesFrom s0.mo.existing cf [] f).mp hnew with
              hacc | ⟨_, hcount⟩
            · simp at hacc
            · exact List.count_eq_zero.mp hcount
        · simp only [loadFiles]
          refine keys_loadFilesFrom_nodup cl _ [] (by simp) (by simp) ?_
          exact nodup_of_sorted (sorted_computeNewFilesFrom s0.mo.existing cf [] List.sorted_nil)
      · exact ⟨i1, i2, i3, i4, i5⟩
    | update =>
      by_cases hpm : s0.pendingMerge = true
      · obtain ⟨e1, e2, e3, e4⟩ := i5 hpm
        obtain ⟨a1, a2, a3, a4, a5⟩ :=
          updateRemoveFrom_inv s0.mo.nodesToRemove s0.mo.existing s0.scene i1 i2 i3
        obtain ⟨b1, b2, b3⟩ :=
          updateAddFrom_inv s0.mo.nodesToAdd
            (updateRemoveFrom s0.mo.existing s0.scene s0.mo.nodesToRemove).1
            (updateRemoveFrom s0.mo.existing s0.scene s0.mo.nodesToRemove).2
            a1 a2 a3
            (fun f hf hmem => e1 f hf (a4 f hmem)) e2 e3
            (fun n hn hmem => e4 n hn (a5 n hmem))
        exact ⟨b1, b2, b3, fun _ => ⟨rfl, rfl⟩, fun hco => Bool.noConfusion hco⟩
      · have hpm' : s0.pendingMerge = false := by
          cases hb : s0.pendingMerge
          · rfl
          · exact absurd hb hpm
        obtain ⟨hr0, ha0⟩ := i4 hpm'
        refine ⟨?_, ?_, ?_, fun _ => ⟨rfl, rfl⟩, fun hco => Bool.noConfusion hco⟩
        · show (((s0.mo.update s0.scene).1).existing.map Prod.fst).Nodup
          simp only [MOState.update, hr0, ha0, updateRemoveFrom, updateAddFrom]
          exact i1
        · show (((s0.mo.update s0.scene).1).existing.map Prod.snd).Nodup
          simp only [MOState.update, hr0, ha0, updateRemoveFrom, updateAddFrom]
          exact i2
        · show List.Perm (((s0.mo.update s0.scene).1).existing.map Prod.snd)
            (s0.mo.update s0.scene).2
          simp only [MOState.update, hr0, ha0, updateRemoveFrom, updateAddFrom]
          exact i3
    | unblock hphase hrel =>
      exact ⟨i1, i2, i3, i4, i5⟩
    | release =>
      exact ⟨i1, i2, i3, i4, i5⟩

/-- C9: in every reachable state — in particular right after
`MasterOperation::open(group)` and after every completed `update(scene)` —
every node stored as a value of `_existingFilenameNodeMap` is one of the
scene children owned by the operation, every such child corresponds to
exactly one key of the map, and `_nodesToAdd`/`_nodesToRemove` are
non-empty only between the hand-off in `operator()` and the next
`update()` (the window marked by the ghost flag `pendingMerge`). -/
theorem masterOperation_scene_map_invariant (s : SysState) (h : Reach s) :
    (∀ p ∈ s.mo.existing, p.2 ∈ s.scene) ∧
    (∀ c ∈ s.scene, ∃! f, mapFind s.mo.existing f = some c) ∧
    ((s.mo.nodesToAdd ≠ [] ∨ s.mo.nodesToRemove ≠ []) → s.pendingMerge = true) := by
  obtain ⟨i1, i2, i3, i4, i5⟩ := reach_inv h
  refine ⟨?_, ?_, ?_⟩
  · intro p hp
    exact i3.mem_iff.mp (List.mem_map.mpr ⟨p, hp, rfl⟩)
  · intro c hc
    have hcv : c ∈ s.mo.existing.map Prod.snd := i3.mem_iff.mpr hc
    rcases List.mem_map.mp hcv with ⟨⟨qf, qn⟩, hqmem, hq⟩
    have hqc : qn = c := hq
    subst hqc
    refine ⟨qf, mapFind_of_mem i1 hqmem, ?_⟩
    intro g hg
    have hgmem : (g, qn) ∈ s.mo.existing := mapFind_mem hg
    have heq := List.inj_on_of_nodup_map i2 hgmem hqmem rfl
    exact congrArg Prod.fst heq
  · intro hne
    cases hpm : s.pendingMerge with
    | true => rfl
    | false =>
      rcases i4 hpm with ⟨hr0, ha0⟩
      rcases hne with hA | hR
      · exact absurd ha0 hA
      · exact absurd hr0 hR

def c9Loader : String → Option Node := fun f => if f = "m1.osg" then some 1 else none

/-- Witness for `masterOperation_scene_map_invariant` at the state reached
by `open` on a one-file master list. -/
theorem masterOperation_scene_map_invariant_check :
    Reach (initState c9Loader ["m1.osg"]) ∧
    ((∀ p ∈ (initState c9Loader ["m1.osg"]).mo.existing,
        p.2 ∈ (initState c9Loader ["m1.osg"]).scene) ∧
     (∀ c ∈ (initState c9Loader ["m1.osg"]).scene,
        ∃! f, mapFind (initState c9Loader ["m1.osg"]).mo.existing f = some c) ∧
     (((initState c9Loader ["m1.osg"]).mo.nodesToAdd ≠ [] ∨
        (initState c9Loader ["m1.osg"]).mo.nodesToRemove ≠ []) →
        (initState c9Loader ["m1.osg"]).pendingMerge = true)) :=
  ⟨Reach.init c9Loader ["m1.osg"] (by decide) (by decide),
    masterOperation_scene_map_invariant (initState c9Loader ["m1.osg"])
      (Reach.init c9Loader ["m1.osg"] (by decide) (by decide))⟩
